import Mathlib

/-!
Shallow embedding of the topology aggregation core of `144network`
(`src/backend/server.py`).  The mutable module-level dict `topology` is
modelled as a `Topology` value threaded explicitly; Python dicts become
association lists preserving insertion order; timestamps (Python numeric epoch values
from `time.time()` or parsed events) become integers: the claims use only their ordering and subtraction.
-/

namespace Net144

/-- Record stored at `topology['nodes'][ip]` in server.py. -/
structure Node where
  first_seen : ℤ
  last_seen : ℤ
  packet_count : ℕ
deriving DecidableEq, Repr

/-- Record stored at `topology['edges'][(src, dst)]` in server.py; the
defaultdict default is `{'count': 0, 'last_active': 0}`. -/
structure Edge where
  count : ℕ
  last_active : ℤ
deriving DecidableEq, Repr

/-- Parsed packet event, as produced by `parse_tcpdump_line`:
`{'src_ip': ..., 'dst_ip': ..., 'timestamp': ...}`. -/
structure Packet where
  src_ip : String
  dst_ip : String
  timestamp : ℤ
deriving DecidableEq, Repr

/-- The shared aggregate `topology = {'nodes': {}, 'edges': defaultdict(...)}`. -/
structure Topology where
  nodes : List (String × Node)
  edges : List ((String × String) × Edge)
deriving DecidableEq, Repr

/-- Dict lookup `d[k]` (first match in the association list). -/
def alGet {α β : Type} [DecidableEq α] : List (α × β) → α → Option β
  | [], _ => none
  | (a, b) :: l, k => if a = k then some b else alGet l k

/-- Dict assignment `d[k] = v`: replace the entry for `k` in place, or append
a new entry (Python dicts keep insertion order). -/
def alSet {α β : Type} [DecidableEq α] : List (α × β) → α → β → List (α × β)
  | [], k, v => [(k, v)]
  | (a, b) :: l, k, v => if a = k then (k, v) :: l else (a, b) :: alSet l k v

/-- The body of the `for ip in [src, dst]` loop in `aggregate_packet`
(server.py lines 35-39): create the node if absent with `packet_count = 0`,
then set `last_seen = now` and increment `packet_count`. -/
def touchNode (nodes : List (String × Node)) (ip : String) (now : ℤ) :
    List (String × Node) :=
  let nodes1 := if (alGet nodes ip).isNone
    then alSet nodes ip { first_seen := now, last_seen := now, packet_count := 0 }
    else nodes
  match alGet nodes1 ip with
  | some n => alSet nodes1 ip
      { first_seen := n.first_seen, last_seen := now, packet_count := n.packet_count + 1 }
  | none => nodes1

/-- `aggregate_packet` from server.py (lines 30-43): update both endpoint
nodes in source-then-destination order, then bump the directed edge's count
and stamp its `last_active` (the defaultdict materialises a zero edge first). -/
def aggregate_packet (p : Packet) (t : Topology) : Topology :=
  let now := p.timestamp
  let nodes := [p.src_ip, p.dst_ip].foldl (fun ns ip => touchNode ns ip now) t.nodes
  let prev := match alGet t.edges (p.src_ip, p.dst_ip) with
    | some e => e
    | none => { count := 0, last_active := 0 }
  { nodes := nodes,
    edges := alSet t.edges (p.src_ip, p.dst_ip)
      { count := prev.count + 1, last_active := now } }

/-- The topology the process starts with: both mappings empty. -/
def emptyTopology : Topology := { nodes := [], edges := [] }

/-- Folding a whole stream of parsed events into the aggregate, in order. -/
def ingestAll (ps : List Packet) (t : Topology) : Topology :=
  ps.foldl (fun s p => aggregate_packet p s) t

/-- `STALE_THRESHOLD = 30` (server.py line 20), the fixed staleness window. -/
def STALE_THRESHOLD : ℤ := 30

/-- One element of the `active_nodes` list built by `get_topology`. -/
structure NodeView where
  ip : String
  packets : ℕ
deriving DecidableEq, Repr

/-- One element of the `active_edges` list built by `get_topology`. -/
structure EdgeView where
  source : String
  target : String
  weight : ℕ
deriving DecidableEq, Repr

/-- The value `get_topology` serialises: `{'nodes': ..., 'edges': ..., 'timestamp': now}`. -/
structure TopologyView where
  nodes : List NodeView
  edges : List EdgeView
  timestamp : ℤ
deriving DecidableEq, Repr

/-- `get_topology` (server.py lines 59-73): list comprehensions keeping the
entries with `now - last_seen < STALE_THRESHOLD` (resp. `last_active`),
projected to the serialised fields.  `now` is the value `time.time()`
returned for this call. -/
def get_topology (now : ℤ) (t : Topology) : TopologyView :=
  { nodes := (t.nodes.filter
      (fun q => decide (now - q.2.last_seen < STALE_THRESHOLD))).map
      (fun q => { ip := q.1, packets := q.2.packet_count }),
    edges := (t.edges.filter
      (fun q => decide (now - q.2.last_active < STALE_THRESHOLD))).map
      (fun q => { source := q.1.1, target := q.1.2, weight := q.2.count }),
    timestamp := now }

/-- The handler as a state transformer on the shared aggregate: it reads under
the lock and contains no assignment to `topology`, so it returns the state it
was given.  Pairing the view with the resulting state makes that absence of
writes a provable statement rather than a convention. -/
def get_topologyRun (now : ℤ) (t : Topology) : TopologyView × Topology :=
  (get_topology now t, t)

/-- The value `get_stats` serialises. -/
structure Stats where
  total_nodes : ℕ
  active_connections : ℕ
  total_packets : ℕ
deriving DecidableEq, Repr

/-- `get_stats` (server.py lines 76-83): `len(topology['nodes'])`, the count
of edges passing the staleness test, and the running sum of `packet_count`
over all nodes. -/
def get_stats (now : ℤ) (t : Topology) : Stats :=
  { total_nodes := t.nodes.length,
    active_connections := t.edges.countP
      (fun q => decide (now - q.2.last_active < STALE_THRESHOLD)),
    total_packets := t.nodes.foldl (fun acc q => acc + q.2.packet_count) 0 }

/-- Packet count recorded for host `h`, 0 when no node exists yet. -/
def packet_countOf (t : Topology) (h : String) : ℕ :=
  match alGet t.nodes h with
  | some n => n.packet_count
  | none => 0

/-- Number of events in the stream that reference `h` at all (a self-loop
event referencing `h` counts as one event) — the counting used by the claim. -/
def refCount (h : String) (ps : List Packet) : ℕ :=
  ps.countP (fun p => p.src_ip == h || p.dst_ip == h)

/-- Number of slot occurrences of `h` in the stream: each event contributes
one for its source slot and one for its destination slot, so a self-loop
event contributes two. -/
def occCount (h : String) : List Packet → ℕ
  | [] => 0
  | p :: ps =>
      (if p.src_ip = h then 1 else 0) + (if p.dst_ip = h then 1 else 0) + occCount h ps

/-- The spec's node invariant: every node has `first_seen ≤ last_seen`. -/
def nodeInvariant (t : Topology) : Prop :=
  ∀ q ∈ t.nodes, q.2.first_seen ≤ q.2.last_seen

instance (t : Topology) : Decidable (nodeInvariant t) := by
  unfold nodeInvariant
  infer_instance

/-- The node value `touchNode` leaves at the touched key, as a function of the
previous binding. -/
def touched (o : Option Node) (now : ℤ) : Node :=
  match o with
  | some n => { first_seen := n.first_seen, last_seen := now, packet_count := n.packet_count + 1 }
  | none => { first_seen := now, last_seen := now, packet_count := 1 }

theorem alGet_alSet {α β : Type} [DecidableEq α] (l : List (α × β)) (k k' : α) (v : β) :
    alGet (alSet l k v) k' = if k = k' then some v else alGet l k' := by
  induction l with
  | nil => simp [alSet, alGet]
  | cons hd tl ih =>
    obtain ⟨a, b⟩ := hd
    by_cases hak : a = k
    · subst hak
      by_cases hk' : a = k'
      · subst hk'
        simp [alSet, alGet]
      · simp [alSet, alGet, hk']
    · by_cases hk' : a = k'
      · subst hk'
        have hkk : ¬ k = a := fun hh => hak hh.symm
        simp [alSet, alGet, hak, hkk]
      · simp [alSet, alGet, hak, hk', ih]

theorem alSet_alSet {α β : Type} [DecidableEq α] (l : List (α × β)) (k : α) (v v' : β) :
    alSet (alSet l k v) k v' = alSet l k v' := by
  induction l with
  | nil => simp [alSet]
  | cons hd tl ih =>
    obtain ⟨a, b⟩ := hd
    by_cases h : a = k
    · simp [alSet, h]
    · simp [alSet, h, ih]

theorem mem_alSet {α β : Type} [DecidableEq α] (l : List (α × β)) (k : α) (v : β) :
    ∀ q ∈ alSet l k v, q ∈ l ∨ q = (k, v) := by
  induction l with
  | nil => simp [alSet]
  | cons hd tl ih =>
    obtain ⟨a, b⟩ := hd
    intro q hq
    by_cases h : a = k
    · simp only [alSet, if_pos h] at hq
      rcases List.mem_cons.mp hq with h1 | h1
      · right; exact h1
      · left; exact List.mem_cons_of_mem _ h1
    · simp only [alSet, if_neg h] at hq
      rcases List.mem_cons.mp hq with h1 | h1
      · left; exact h1 ▸ List.mem_cons_self _ _
      · rcases ih q h1 with h2 | h2
        · left; exact List.mem_cons_of_mem _ h2
        · right; exact h2

theorem alGet_mem {α β : Type} [DecidableEq α] {l : List (α × β)} {k : α} {b : β}
    (h : alGet l k = some b) : (k, b) ∈ l := by
  induction l with
  | nil => simp [alGet] at h
  | cons hd tl ih =>
    obtain ⟨a, c⟩ := hd
    by_cases h' : a = k
    · subst h'
      simp [alGet] at h
      subst h
      exact List.mem_cons_self _ _
    · simp only [alGet, if_neg h'] at h
      exact List.mem_cons_of_mem _ (ih h)

theorem touchNode_eq (nodes : List (String × Node)) (ip : String) (now : ℤ) :
    touchNode nodes ip now = alSet nodes ip (touched (alGet nodes ip) now) := by
  cases h : alGet nodes ip with
  | none =>
    simp only [touchNode, h, Option.isNone_none, if_pos, alGet_alSet, if_pos rfl]
    rw [alSet_alSet]
    rfl
  | some n =>
    simp [touchNode, h, touched]

theorem alGet_touchNode (nodes : List (String × Node)) (ip h : String) (now : ℤ) :
    alGet (touchNode nodes ip now) h =
      if ip = h then some (touched (alGet nodes ip) now) else alGet nodes h := by
  rw [touchNode_eq, alGet_alSet]

theorem mem_touchNode (nodes : List (String × Node)) (ip : String) (now : ℤ) :
    ∀ q ∈ touchNode nodes ip now, q ∈ nodes ∨ q = (ip, touched (alGet nodes ip) now) := by
  rw [touchNode_eq]
  exact mem_alSet nodes ip _

theorem aggregate_nodes_eq (p : Packet) (t : Topology) :
    (aggregate_packet p t).nodes =
      touchNode (touchNode t.nodes p.src_ip p.timestamp) p.dst_ip p.timestamp := rfl

theorem aggregate_edges_eq (p : Packet) (t : Topology) :
    (aggregate_packet p t).edges =
      alSet t.edges (p.src_ip, p.dst_ip)
        { count := (match alGet t.edges (p.src_ip, p.dst_ip) with
            | some e => e
            | none => { count := 0, last_active := 0 } : Edge).count + 1,
          last_active := p.timestamp } := rfl

/-- Packet count at a key of a raw node list (`packet_countOf` lifted off
`Topology` for the induction lemmas). -/
def pcount (nodes : List (String × Node)) (h : String) : ℕ :=
  match alGet nodes h with
  | some n => n.packet_count
  | none => 0

theorem pcount_touchNode (nodes : List (String × Node)) (ip h : String) (now : ℤ) :
    pcount (touchNode nodes ip now) h = pcount nodes h + (if ip = h then 1 else 0) := by
  unfold pcount
  rw [alGet_touchNode]
  by_cases hip : ip = h
  · subst hip
    cases hg : alGet nodes ip <;> simp [touched, hg]
  · simp [hip]

theorem packet_countOf_aggregate (p : Packet) (t : Topology) (h : String) :
    packet_countOf (aggregate_packet p t) h =
      packet_countOf t h +
        ((if p.src_ip = h then 1 else 0) + (if p.dst_ip = h then 1 else 0)) := by
  show pcount (aggregate_packet p t).nodes h = pcount t.nodes h + _
  rw [aggregate_nodes_eq, pcount_touchNode, pcount_touchNode, Nat.add_assoc]

theorem packet_countOf_ingestAll (ps : List Packet) (t : Topology) (h : String) :
    packet_countOf (ingestAll ps t) h = packet_countOf t h + occCount h ps := by
  induction ps generalizing t with
  | nil => simp [ingestAll, occCount]
  | cons p ps ih =>
    show packet_countOf (ingestAll ps (aggregate_packet p t)) h = _
    rw [ih, packet_countOf_aggregate, occCount]
    omega

/-- Bounded form of the node invariant used for the monotone-timestamp
induction: every recorded `last_seen` is also at most `m`. -/
def boundedInv (t : Topology) (m : ℤ) : Prop :=
  ∀ q ∈ t.nodes, q.2.first_seen ≤ q.2.last_seen ∧ q.2.last_seen ≤ m

theorem touchNode_bounded {nodes : List (String × Node)} {m now : ℤ} (ip : String)
    (hb : ∀ q ∈ nodes, q.2.first_seen ≤ q.2.last_seen ∧ q.2.last_seen ≤ m)
    (hm : m ≤ now) :
    ∀ q ∈ touchNode nodes ip now,
      q.2.first_seen ≤ q.2.last_seen ∧ q.2.last_seen ≤ now := by
  intro q hq
  rcases mem_touchNode nodes ip now q hq with hold | hnew
  · obtain ⟨h1, h2⟩ := hb q hold
    exact ⟨h1, le_trans h2 hm⟩
  · subst hnew
    cases hg : alGet nodes ip with
    | none => simp [touched]
    | some n =>
      obtain ⟨h1, h2⟩ := hb (ip, n) (alGet_mem hg)
      simp only [touched]
      exact ⟨le_trans h1 (le_trans h2 hm), le_refl _⟩

theorem aggregate_bounded {t : Topology} {m : ℤ} (p : Packet)
    (hb : boundedInv t m) (hm : m ≤ p.timestamp) :
    boundedInv (aggregate_packet p t) p.timestamp := by
  intro q hq
  rw [aggregate_nodes_eq] at hq
  exact touchNode_bounded p.dst_ip (touchNode_bounded p.src_ip hb hm) (le_refl _) q hq

theorem ingestAll_bounded (ps : List Packet) (t : Topology) (m : ℤ)
    (hb : boundedInv t m) (hm : ∀ q ∈ ps, m ≤ q.timestamp)
    (hp : (ps.map Packet.timestamp).Pairwise (· ≤ ·)) :
    nodeInvariant (ingestAll ps t) := by
  induction ps generalizing t m with
  | nil =>
    intro q hq
    exact (hb q hq).1
  | cons p ps ih =>
    rw [List.map_cons, List.pairwise_cons] at hp
    obtain ⟨hhead, htail⟩ := hp
    have hb' : boundedInv (aggregate_packet p t) p.timestamp :=
      aggregate_bounded p hb (hm p (List.mem_cons_self _ _))
    have hm' : ∀ q ∈ ps, p.timestamp ≤ q.timestamp := fun q hq =>
      hhead _ (List.mem_map_of_mem _ hq)
    exact ih (aggregate_packet p t) p.timestamp hb' hm' htail

/-- C1 counterexample: ingesting `(A,B,100)` then `(A,C,50)` (an out-of-order
timestamp) leaves node `A` with `first_seen = 100 > 50 = last_seen`, so the
claimed invariant fails for arbitrary timestamp orders. -/
theorem c1_counterexample_out_of_order :
    alGet (ingestAll [⟨"A", "B", 100⟩, ⟨"A", "C", 50⟩] emptyTopology).nodes "A" =
        some { first_seen := 100, last_seen := 50, packet_count := 2 } ∧
      ((50 : ℤ) < 100 ∧
        ¬ nodeInvariant (ingestAll [⟨"A", "B", 100⟩, ⟨"A", "C", 50⟩] emptyTopology)) := by
  decide

/-- C1 (amended): for ingest sequences whose timestamps are non-decreasing in
call order, every node of the resulting topology satisfies
`first_seen ≤ last_seen`. -/
theorem c1_first_seen_le_last_seen_of_monotone (ps : List Packet)
    (hp : (ps.map Packet.timestamp).Pairwise (· ≤ ·)) :
    nodeInvariant (ingestAll ps emptyTopology) := by
  cases ps with
  | nil =>
    intro q hq
    exact absurd hq (List.not_mem_nil q)
  | cons p ps =>
    refine ingestAll_bounded (p :: ps) emptyTopology p.timestamp ?_ ?_ hp
    · intro q hq
      exact absurd hq (List.not_mem_nil q)
    · intro q hq
      rcases List.mem_cons.mp hq with h1 | h1
      · subst h1; exact le_refl _
      · rw [List.map_cons, List.pairwise_cons] at hp
        exact hp.1 _ (List.mem_map_of_mem _ h1)

/-- Witness for the amended C1 at a concrete monotone sequence. -/
theorem c1_witness_monotone_sequence :
    nodeInvariant (ingestAll [⟨"A", "B", 1⟩, ⟨"B", "C", 2⟩] emptyTopology) :=
  c1_first_seen_le_last_seen_of_monotone [⟨"A", "B", 1⟩, ⟨"B", "C", 2⟩] (by decide)

/-- C2 counterexample: the single self-loop event `(A,A,0)` references `A`
in N = 1 event, but the node ends with `packet_count = 2`. -/
theorem c2_counterexample_self_loop :
    packet_countOf (ingestAll [⟨"A", "A", 0⟩] emptyTopology) "A" = 2 ∧
      refCount "A" [⟨"A", "A", 0⟩] = 1 := by
  decide

/-- C2 (amended): a host's `packet_count` equals the number of slot
occurrences of the host in the stream — each event contributes one for its
source slot and one for its destination slot, so a self-loop event
referencing `h` contributes two. -/
theorem c2_packet_count_eq_slot_occurrences (h : String) (ps : List Packet) :
    packet_countOf (ingestAll ps emptyTopology) h = occCount h ps := by
  rw [packet_countOf_ingestAll]
  simp [packet_countOf, emptyTopology, alGet]

/-- C3: a self-loop event is legal; ingesting `(A,A,t)` into the empty
topology gives node `A` two `packet_count` increments (one per iteration of
the `[src, dst]` loop) and the edge `(A,A)` one count. -/
theorem c3_self_loop_counts (ts : ℤ) :
    alGet (aggregate_packet ⟨"A", "A", ts⟩ emptyTopology).nodes "A" =
        some { first_seen := ts, last_seen := ts, packet_count := 2 } ∧
      alGet (aggregate_packet ⟨"A", "A", ts⟩ emptyTopology).edges ("A", "A") =
        some { count := 1, last_active := ts } :=
  ⟨rfl, rfl⟩

/-- C4: `aggregate_packet` stamps the event's own timestamp on both endpoint
nodes' `last_seen` and on the edge's `last_active`, unconditionally (last
write wins), for every prior state and every event. -/
theorem c4_last_write_wins (t : Topology) (p : Packet) :
    (alGet (aggregate_packet p t).nodes p.src_ip).map Node.last_seen = some p.timestamp ∧
      (alGet (aggregate_packet p t).nodes p.dst_ip).map Node.last_seen = some p.timestamp ∧
      (alGet (aggregate_packet p t).edges (p.src_ip, p.dst_ip)).map Edge.last_active =
        some p.timestamp := by
  refine ⟨?_, ?_, ?_⟩
  · rw [aggregate_nodes_eq, alGet_touchNode]
    by_cases hd : p.dst_ip = p.src_ip
    · rw [if_pos hd]
      cases alGet (touchNode t.nodes p.src_ip p.timestamp) p.dst_ip <;> simp [touched]
    · rw [if_neg hd, alGet_touchNode, if_pos rfl]
      cases alGet t.nodes p.src_ip <;> simp [touched]
  · rw [aggregate_nodes_eq, alGet_touchNode, if_pos rfl]
    cases alGet (touchNode t.nodes p.src_ip p.timestamp) p.dst_ip <;> simp [touched]
  · rw [aggregate_edges_eq, alGet_alSet, if_pos rfl]
    rfl

/-- C5 for the server.py implementation: `aggregate_packet` is a total
function of any state and any event triple (any host string, bogus or not,
simply becomes a node keyed by that string), and its only effect is on the
two referenced node entries and the one referenced edge entry: every other
key of both mappings is left unchanged. -/
theorem c5_ingest_total_and_frame (t : Topology) (p : Packet) :
    (alGet (aggregate_packet p t).nodes p.src_ip).isSome = true ∧
      (alGet (aggregate_packet p t).nodes p.dst_ip).isSome = true ∧
      (∀ h : String, h ≠ p.src_ip → h ≠ p.dst_ip →
        alGet (aggregate_packet p t).nodes h = alGet t.nodes h) ∧
      (∀ q : String × String, q ≠ (p.src_ip, p.dst_ip) →
        alGet (aggregate_packet p t).edges q = alGet t.edges q) := by
  refine ⟨?_, ?_, ?_, ?_⟩
  · rw [aggregate_nodes_eq, alGet_touchNode]
    by_cases hd : p.dst_ip = p.src_ip
    · simp [hd]
    · rw [if_neg hd, alGet_touchNode, if_pos rfl]
      rfl
  · rw [aggregate_nodes_eq, alGet_touchNode, if_pos rfl]
    rfl
  · intro h hs hdst
    rw [aggregate_nodes_eq, alGet_touchNode,
      if_neg (fun he => hdst he.symm), alGet_touchNode, if_neg (fun he => hs he.symm)]
  · intro q hq
    rw [aggregate_edges_eq, alGet_alSet, if_neg (fun he => hq he.symm)]

/-- Keys of an association list with nodup keys determine the value. -/
theorem nodup_key_eq {α β : Type} {l : List (α × β)}
    (h : (l.map Prod.fst).Nodup) {k : α} {b b' : β}
    (h1 : (k, b) ∈ l) (h2 : (k, b') ∈ l) : b = b' := by
  induction l with
  | nil => exact absurd h1 (List.not_mem_nil _)
  | cons hd tl ih =>
    rw [List.map_cons, List.nodup_cons] at h
    obtain ⟨hhd, htl⟩ := h
    rcases List.mem_cons.mp h1 with e1 | e1
    · rcases List.mem_cons.mp h2 with e2 | e2
      · exact ((Prod.mk.injEq _ _ _ _).mp (e1.trans e2.symm)).2
      · rw [← e1] at hhd
        exact absurd (List.mem_map_of_mem Prod.fst e2) hhd
    · rcases List.mem_cons.mp h2 with e2 | e2
      · rw [← e2] at hhd
        exact absurd (List.mem_map_of_mem Prod.fst e1) hhd
      · exact ih htl e1 e2

/-- C6: with well-formed (nodup-keyed) mappings, a node appears in
`active_nodes` of `get_topology` exactly when `now - last_seen <
STALE_THRESHOLD`, and an edge appears in `active_edges` exactly when
`now - last_active < STALE_THRESHOLD` — strict inequality, so an entity
exactly at the boundary is excluded. -/
theorem c6_strict_staleness_filter (now : ℤ) (t : Topology)
    (hn : (t.nodes.map Prod.fst).Nodup) (he : (t.edges.map Prod.fst).Nodup) :
    (∀ ip d, (ip, d) ∈ t.nodes →
      (NodeView.mk ip d.packet_count ∈ (get_topology now t).nodes ↔
        now - d.last_seen < STALE_THRESHOLD)) ∧
    (∀ s d e, ((s, d), e) ∈ t.edges →
      (EdgeView.mk s d e.count ∈ (get_topology now t).edges ↔
        now - e.last_active < STALE_THRESHOLD)) := by
  constructor
  · intro ip d hmem
    constructor
    · intro hv
      simp only [get_topology, List.mem_map] at hv
      obtain ⟨q, hq, hfq⟩ := hv
      rw [List.mem_filter] at hq
      obtain ⟨hqmem, hqpred⟩ := hq
      have hip : q.1 = ip := congrArg NodeView.ip hfq
      have hq2 : q.2 = d := by
        refine nodup_key_eq hn ?_ hmem
        rw [← hip]
        exact hqmem
      rw [hq2] at hqpred
      exact of_decide_eq_true hqpred
    · intro hlt
      have hf : (ip, d) ∈ t.nodes.filter
          (fun q => decide (now - q.2.last_seen < STALE_THRESHOLD)) :=
        List.mem_filter.mpr ⟨hmem, decide_eq_true hlt⟩
      simpa [get_topology] using
        List.mem_map_of_mem (fun q => NodeView.mk q.1 q.2.packet_count) hf
  · intro s d e hmem
    constructor
    · intro hv
      simp only [get_topology, List.mem_map] at hv
      obtain ⟨q, hq, hfq⟩ := hv
      rw [List.mem_filter] at hq
      obtain ⟨hqmem, hqpred⟩ := hq
      have hs : q.1.1 = s := congrArg EdgeView.source hfq
      have hd : q.1.2 = d := congrArg EdgeView.target hfq
      have hq2 : q.2 = e := by
        refine nodup_key_eq he ?_ hmem
        rw [← hs, ← hd]
        exact hqmem
      rw [hq2] at hqpred
      exact of_decide_eq_true hqpred
    · intro hlt
      have hf : ((s, d), e) ∈ t.edges.filter
          (fun q => decide (now - q.2.last_active < STALE_THRESHOLD)) :=
        List.mem_filter.mpr ⟨hmem, decide_eq_true hlt⟩
      simpa [get_topology] using
        List.mem_map_of_mem (fun q => EdgeView.mk q.1.1 q.1.2 q.2.count) hf

/-- Witness for C6 at a concrete state: node `A` (last_seen 100) is active at
`now = 110`. -/
theorem c6_witness_concrete :
    NodeView.mk "A" 1 ∈
      (get_topology 110 (ingestAll [⟨"A", "B", 100⟩] emptyTopology)).nodes :=
  ((c6_strict_staleness_filter 110 (ingestAll [⟨"A", "B", 100⟩] emptyTopology)
        (by decide) (by decide)).1 "A"
      { first_seen := 100, last_seen := 100, packet_count := 1 } (by decide)).mpr
    (by decide)

/-- C7: the topology query is a pure read — as a state transformer it returns
the aggregate unchanged — and staleness is non-destructive: when a node is
stale at query time, a later ingest naming the same host updates the original
entry, preserving `first_seen` and continuing `packet_count` from its prior
value (by 1, or 2 when the event is a self-loop on that host). -/
theorem c7_snapshot_pure_and_nondestructive (t : Topology) (now : ℤ) (ip : String)
    (n : Node) (p : Packet) (hn : alGet t.nodes ip = some n)
    (hstale : ¬ (now - n.last_seen < STALE_THRESHOLD)) (hsrc : p.src_ip = ip) :
    (get_topologyRun now t).2 = t ∧
      alGet (aggregate_packet p (get_topologyRun now t).2).nodes ip =
        some { first_seen := n.first_seen, last_seen := p.timestamp,
               packet_count := n.packet_count + (if p.dst_ip = ip then 2 else 1) } := by
  refine ⟨rfl, ?_⟩
  show alGet (aggregate_packet p t).nodes ip = _
  rw [aggregate_nodes_eq, hsrc, alGet_touchNode]
  by_cases hd : p.dst_ip = ip
  · rw [if_pos hd, hd, alGet_touchNode, if_pos rfl, hn]
    simp [touched, hd]
  · rw [if_neg hd, alGet_touchNode, if_pos rfl, hn]
    simp [touched, hd]

/-- Witness for C7: after `(A,B,100)`, node `A` is stale at `now = 200`, and
ingesting `(A,C,205)` still continues its original record. -/
theorem c7_witness_concrete :
    (get_topologyRun 200 (ingestAll [⟨"A", "B", 100⟩] emptyTopology)).2 =
        ingestAll [⟨"A", "B", 100⟩] emptyTopology ∧
      alGet (aggregate_packet ⟨"A", "C", 205⟩
          (get_topologyRun 200 (ingestAll [⟨"A", "B", 100⟩] emptyTopology)).2).nodes "A" =
        some { first_seen := 100, last_seen := 205, packet_count := 2 } :=
  c7_snapshot_pure_and_nondestructive (ingestAll [⟨"A", "B", 100⟩] emptyTopology) 200 "A"
    { first_seen := 100, last_seen := 100, packet_count := 1 } ⟨"A", "C", 205⟩
    (by decide) (by decide) rfl

theorem foldl_add_packet_count (l : List (String × Node)) (a : ℕ) :
    l.foldl (fun acc q => acc + q.2.packet_count) a =
      a + (l.map (fun q => q.2.packet_count)).sum := by
  induction l generalizing a with
  | nil => simp
  | cons hd tl ih =>
    rw [List.foldl_cons, ih, List.map_cons, List.sum_cons]
    omega

/-- C8: `get_stats` reports the unfiltered node-map size, the count of edges
active under the same strict staleness rule as `get_topology`, and the
unfiltered sum of `packet_count`; concretely, five ingests of the same
ordered pair at increasing timestamps give `total_nodes = 2`,
`active_connections = 1`, `total_packets = 10` within the window. -/
theorem c8_stats_semantics :
    (∀ (now : ℤ) (t : Topology),
      (get_stats now t).total_nodes = t.nodes.length ∧
        (get_stats now t).active_connections =
          (t.edges.filter
            (fun q => decide (now - q.2.last_active < STALE_THRESHOLD))).length ∧
        (get_stats now t).total_packets =
          (t.nodes.map (fun q => q.2.packet_count)).sum) ∧
    get_stats 6 (ingestAll
        [⟨"10.0.0.1", "10.0.0.2", 1⟩, ⟨"10.0.0.1", "10.0.0.2", 2⟩,
         ⟨"10.0.0.1", "10.0.0.2", 3⟩, ⟨"10.0.0.1", "10.0.0.2", 4⟩,
         ⟨"10.0.0.1", "10.0.0.2", 5⟩] emptyTopology) =
      { total_nodes := 2, active_connections := 1, total_packets := 10 } := by
  constructor
  · intro now t
    refine ⟨rfl, ?_, ?_⟩
    · exact List.countP_eq_length_filter _ _
    · show t.nodes.foldl (fun acc q => acc + q.2.packet_count) 0 = _
      rw [foldl_add_packet_count]
      omega
  · decide

/-- C10: an edge can be active while one of its endpoint nodes is stale:
after `(A,B,100)` then `(A,C,50)`, the snapshot at `now = 110` keeps edge
`A→B` (last_active 100) but no node view for `A` (its `last_seen` was
overwritten to 50). -/
theorem c10_active_edge_with_stale_endpoint :
    EdgeView.mk "A" "B" 1 ∈
        (get_topology 110 (ingestAll [⟨"A", "B", 100⟩, ⟨"A", "C", 50⟩] emptyTopology)).edges ∧
      ((get_topology 110
          (ingestAll [⟨"A", "B", 100⟩, ⟨"A", "C", 50⟩] emptyTopology)).nodes.all
        (fun v => v.ip != "A")) = true := by
  decide

end Net144
